import Mathlib

/-!
Verification of the command-interpreter core (`src/include/Command.h`,
`src/include/CommandFactory.h`, `src/src/main.cpp`).

The C++ code is shallowly embedded as executable Lean functions:

* `std::string` is modelled as `String` / `List Char`;
* `str.find_first_of(delims, start)` is modelled by `findFirstOf` acting on the
  suffix `str.drop start` (positions are kept relative to the current scan
  window, which is the suffix that remains);
* loops whose scan position strictly advances are modelled by structural
  recursion on a fuel argument; the wrappers supply `length + 1` fuel, which
  the lemmas below prove sufficient (each iteration consumes at least one
  character of the suffix);
* `getenv` is an explicit read-only parameter `env : String → Option String`;
* `std::cout` output is modelled as the returned `String` / `List String`.
-/

/-- The null character; `std::string::operator[] (size())` yields it. -/
def nullChar : Char := Char.ofNat 0

/-- The dollar-sign character `$` (code 36). -/
def dollarChar : Char := Char.ofNat 36

/-- The opening-brace character (code 123). -/
def openBraceChar : Char := Char.ofNat 123

/-- The closing-brace character (code 125). -/
def closeBraceChar : Char := Char.ofNat 125

/-- `find_first_of` on the remaining suffix: index of the first character that
belongs to `delims`, or `none`.  `str.find_first_of(delims, start)` is
`findFirstOf delims (str.drop start)` shifted by `start`. -/
def findFirstOf (delims : List Char) : List Char → Option Nat
  | [] => none
  | c :: rest => if c ∈ delims then some 0 else (findFirstOf delims rest).map (· + 1)

theorem findFirstOf_lt_length {delims : List Char} :
    ∀ {t : List Char} {k : Nat}, findFirstOf delims t = some k → k < t.length := by
  intro t
  induction t with
  | nil => intro k h; simp [findFirstOf] at h
  | cons c rest ih =>
    intro k h
    simp only [findFirstOf] at h
    by_cases hc : c ∈ delims
    · simp [hc] at h
      simp only [List.length_cons]
      omega
    · simp [hc] at h
      obtain ⟨k0, hk0, rfl⟩ := h
      have := ih hk0
      simp
      omega

theorem findFirstOf_getD_mem {delims : List Char} {d : Char} :
    ∀ {t : List Char} {k : Nat}, findFirstOf delims t = some k → t.getD k d ∈ delims := by
  intro t
  induction t with
  | nil => intro k h; simp [findFirstOf] at h
  | cons c rest ih =>
    intro k h
    simp only [findFirstOf] at h
    by_cases hc : c ∈ delims
    · simp [hc] at h
      simpa [← h] using hc
    · simp [hc] at h
      obtain ⟨k0, hk0, rfl⟩ := h
      simpa using ih hk0

theorem findFirstOf_getD_not_before {delims : List Char} {d : Char} :
    ∀ {t : List Char} {k : Nat}, findFirstOf delims t = some k →
      ∀ j, j < k → t.getD j d ∉ delims := by
  intro t
  induction t with
  | nil => intro k h; simp [findFirstOf] at h
  | cons c rest ih =>
    intro k h j hj
    simp only [findFirstOf] at h
    by_cases hc : c ∈ delims
    · simp [hc] at h
      omega
    · simp [hc] at h
      obtain ⟨k0, hk0, rfl⟩ := h
      cases j with
      | zero => simpa using hc
      | succ j0 => simpa using ih hk0 j0 (by omega)

theorem findFirstOf_mem_take {delims : List Char} :
    ∀ {t : List Char} {k : Nat}, findFirstOf delims t = some k →
      ∀ c ∈ t.take k, c ∉ delims := by
  intro t
  induction t with
  | nil => intro k h; simp [findFirstOf] at h
  | cons c rest ih =>
    intro k h c0 hc0
    simp only [findFirstOf] at h
    by_cases hc : c ∈ delims
    · simp [hc] at h
      subst h
      simp at hc0
    · simp [hc] at h
      obtain ⟨k0, hk0, rfl⟩ := h
      simp at hc0
      rcases hc0 with rfl | hc0
      · exact hc
      · exact ih hk0 c0 hc0

theorem findFirstOf_none {delims : List Char} :
    ∀ {t : List Char}, findFirstOf delims t = none → ∀ c ∈ t, c ∉ delims := by
  intro t
  induction t with
  | nil => intro _ c hc; simp at hc
  | cons c rest ih =>
    intro h c0 hc0
    simp only [findFirstOf] at h
    by_cases hc : c ∈ delims
    · simp [hc] at h
    · simp [hc] at h
      rcases List.mem_cons.mp hc0 with rfl | hc0
      · exact hc
      · exact ih h c0 hc0

/-- The delimiter set `"$}"` used by `expandVariables`. -/
def expandDelims : List Char := [dollarChar, closeBraceChar]

/-- The loop of `Command::expandVariables` (`src/include/Command.h:26-47`),
with the scan window kept as the suffix `t = str.drop start` and the found
position `k = end - start` relative to it:

* `while ((end = str.find_first_of("$}", start)) != npos)`;
* first branch: `str[start]=='$' && end > start+1` takes
  `varName = str.substr(start+1, end-start-1)` and appends `getenv(varName)`
  if set;
* second branch: `str[start]=='{' && end > start+1 && str[end-1]=='$'` takes
  `varName = str.substr(start+2, end-start-2)` likewise;
* else: appends `str.substr(start, end-start+1)` verbatim;
* all three set `start = end + 1`, i.e. continue on `t.drop (k+1)`;
* after the loop: `if (start != str.length()) result += str.substr(start)`,
  i.e. the remaining suffix is appended exactly when it is non-empty. -/
def expandLoop (env : String → Option String) : Nat → List Char → List Char
  | 0, _ => []
  | fuel + 1, t =>
    match findFirstOf expandDelims t with
    | none => if t.length ≠ 0 then t else []
    | some k =>
      if t.getD 0 nullChar = dollarChar ∧ k > 1 then
        (match env (String.mk ((t.drop 1).take (k - 1))) with
         | some v => v.data
         | none => []) ++ expandLoop env fuel (t.drop (k + 1))
      else if t.getD 0 nullChar = openBraceChar ∧ k > 1 ∧
          t.getD (k - 1) nullChar = dollarChar then
        (match env (String.mk ((t.drop 2).take (k - 2))) with
         | some v => v.data
         | none => []) ++ expandLoop env fuel (t.drop (k + 1))
      else
        t.take (k + 1) ++ expandLoop env fuel (t.drop (k + 1))

/-- `Command::expandVariables` (`src/include/Command.h:23-52`, duplicated at
`src/src/main.cpp:244-273`), with the environment passed explicitly. -/
def expandVariables (env : String → Option String) (str : String) : String :=
  String.mk (expandLoop env (str.data.length + 1) str.data)

theorem expandLoop_eq_self (env : String → Option String) :
    ∀ fuel t, t.length < fuel → expandLoop env fuel t = t := by
  intro fuel
  induction fuel with
  | zero => intro t h; exact absurd h (Nat.not_lt_zero _)
  | succ fuel ih =>
    intro t h
    cases hf : findFirstOf expandDelims t with
    | none =>
      simp only [expandLoop, hf]
      rcases t with _ | ⟨c, rest⟩ <;> simp
    | some k =>
      have hk : k < t.length := findFirstOf_lt_length hf
      have hnb := findFirstOf_getD_not_before (d := nullChar) hf
      have h1 : ¬(t.getD 0 nullChar = dollarChar ∧ k > 1) := by
        rintro ⟨hd, hk1⟩
        exact hnb 0 (by omega) (by rw [hd]; simp [expandDelims])
      have h2 : ¬(t.getD 0 nullChar = openBraceChar ∧ k > 1 ∧
          t.getD (k - 1) nullChar = dollarChar) := by
        rintro ⟨-, hk1, hd⟩
        exact hnb (k - 1) (by omega) (by rw [hd]; simp [expandDelims])
      simp only [expandLoop, hf]
      rw [if_neg h1, if_neg h2, ih (t.drop (k + 1)) (by simp; omega)]
      exact List.take_append_drop (k + 1) t

/-- The expander never rewrites anything: both substitution branches are
unreachable (shared by several claim proofs). -/
theorem expandVariables_eq_self (env : String → Option String) (str : String) :
    expandVariables env str = str := by
  unfold expandVariables
  rw [expandLoop_eq_self env _ _ (by omega)]

/-- The loop of `CommandFactory::splitString`
(`src/include/CommandFactory.h:16-29`, duplicated at `src/src/main.cpp:224-237`),
again with the scan window kept as the remaining suffix:

* `while ((end = str.find_first_of(delimiters, start)) != npos)`;
* `if (end != start) tokens.push_back(str.substr(start, end - start))`,
  i.e. push `t.take k` exactly when `k ≠ 0`;
* `start = end + 1`, i.e. continue on `t.drop (k+1)`;
* after the loop: `if (start != str.length()) tokens.push_back(str.substr(start))`,
  i.e. push the remaining suffix exactly when it is non-empty. -/
def splitLoop (delims : List Char) : Nat → List Char → List (List Char)
  | 0, _ => []
  | fuel + 1, t =>
    match findFirstOf delims t with
    | none => if t.length ≠ 0 then [t] else []
    | some k =>
      (if k ≠ 0 then [t.take k] else []) ++ splitLoop delims fuel (t.drop (k + 1))

/-- `CommandFactory::splitString` (`src/include/CommandFactory.h:16-29`). -/
def splitString (str delimiters : String) : List String :=
  (splitLoop delimiters.data (str.data.length + 1) str.data).map String.mk

theorem splitLoop_token_sound (delims : List Char) :
    ∀ fuel t tok, tok ∈ splitLoop delims fuel t →
      tok ≠ [] ∧ ∀ c ∈ tok, c ∉ delims := by
  intro fuel
  induction fuel with
  | zero => intro t tok h; simp [splitLoop] at h
  | succ fuel ih =>
    intro t tok h
    cases hf : findFirstOf delims t with
    | none =>
      simp only [splitLoop, hf] at h
      by_cases ht : t.length ≠ 0
      · simp [ht] at h
        subst h
        exact ⟨by intro h0; simp [h0] at ht, findFirstOf_none hf⟩
      · simp [ht] at h
    | some k =>
      simp only [splitLoop, hf, List.mem_append] at h
      rcases h with h | h
      · by_cases hk : k ≠ 0
        · simp [hk] at h
          subst h
          have hklen : k < t.length := findFirstOf_lt_length hf
          refine ⟨?_, findFirstOf_mem_take hf⟩
          intro h0
          have hlen := congrArg List.length h0
          rw [List.length_take] at hlen
          simp only [List.length_nil] at hlen
          omega
        · simp [hk] at h
      · exact ih (t.drop (k + 1)) tok h

theorem splitLoop_join (delims : List Char) :
    ∀ fuel t, t.length < fuel →
      (splitLoop delims fuel t).flatten = t.filter (fun c => decide (c ∉ delims)) := by
  intro fuel
  induction fuel with
  | zero => intro t h; exact absurd h (Nat.not_lt_zero _)
  | succ fuel ih =>
    intro t h
    cases hf : findFirstOf delims t with
    | none =>
      simp only [splitLoop, hf]
      have hall := findFirstOf_none hf
      have hfilter : t.filter (fun c => decide (c ∉ delims)) = t := by
        apply List.filter_eq_self.mpr
        intro a ha
        simpa using hall a ha
      by_cases ht : t.length ≠ 0
      · rw [if_pos ht, List.flatten_cons, List.flatten_nil, List.append_nil, hfilter]
      · rw [if_neg ht]
        have ht0 : t = [] := List.length_eq_zero.mp (by omega)
        subst ht0
        rfl
    | some k =>
      have hk : k < t.length := findFirstOf_lt_length hf
      have hmem : t.getD k nullChar ∈ delims := findFirstOf_getD_mem hf
      have htake : (t.take k).filter (fun c => decide (c ∉ delims)) = t.take k := by
        apply List.filter_eq_self.mpr
        intro a ha
        simpa using findFirstOf_mem_take hf a ha
      have hsplit : t = t.take k ++ t.getD k nullChar :: t.drop (k + 1) := by
        conv_lhs => rw [← List.take_append_drop k t]
        congr 1
        rw [List.getD_eq_getElem?_getD, List.getElem?_eq_getElem hk]
        exact (List.drop_eq_getElem_cons hk).symm ▸ rfl
      have hpa : ¬((fun c => decide (c ∉ delims)) (t.getD k nullChar) = true) := by
        simpa using hmem
      have hcons : List.filter (fun c => decide (c ∉ delims))
            (t.getD k nullChar :: t.drop (k + 1)) =
          List.filter (fun c => decide (c ∉ delims)) (t.drop (k + 1)) :=
        List.filter_cons_of_neg hpa
      have hrec := ih (t.drop (k + 1)) (by simp; omega)
      simp only [splitLoop, hf]
      rw [List.flatten_append, hrec]
      conv_rhs => rw [hsplit]
      rw [List.filter_append, htake, hcons]
      by_cases hk0 : k = 0
      · subst hk0
        simp
      · rw [if_pos hk0, List.flatten_cons, List.flatten_nil, List.append_nil]

/-- The closed set of command variants produced by `CommandFactory::createCommand`
(`src/include/CommandFactory.h:31-54`): `ExitCommand`, `HistoryCommand`,
`EchoCommand` (owning its token sequence), and `ExternalCommand` (owning its
token sequence and the background flag). -/
inductive Command where
  | exitCmd : Command
  | history : Command
  | echo (args : List String) : Command
  | external (args : List String) (runInBackground : Bool) : Command
deriving DecidableEq, Repr

/-- Failure conditions of the embedded code.  `emptyIndex` marks the
out-of-bounds read `tokens[0]` that `createCommand` performs on an empty
token vector (undefined behavior in the C++ source, made explicit here). -/
inductive ShellError where
  | emptyIndex : ShellError
deriving DecidableEq, Repr

/-- The background-marker handling of `CommandFactory::createCommand`
(`src/include/CommandFactory.h:36-40`):
`if (!tokens.empty() && tokens.back() == BACKGROUND_PROCESS) { runInBackground
= true; tokens.pop_back(); }` with `BACKGROUND_PROCESS = "&"`. -/
def stripBackground (tokens : List String) : List String × Bool :=
  if tokens ≠ [] ∧ tokens.getLast? = some "&" then (tokens.dropLast, true)
  else (tokens, false)

/-- The classification step of `CommandFactory::createCommand`
(`src/include/CommandFactory.h:42-53`), applied to an already tokenized line.
The source reads `tokens[0]` without checking emptiness; on an empty vector
that read is out of bounds, which the embedding surfaces as
`ShellError.emptyIndex`. -/
def classifyTokens (tokens : List String) : Except ShellError Command :=
  match stripBackground tokens with
  | (toks, runInBackground) =>
    match toks with
    | [] => Except.error ShellError.emptyIndex
    | t0 :: rest =>
      if t0 = "exit" then Except.ok Command.exitCmd
      else if t0 = "myhistory" then Except.ok Command.history
      else if t0 = "echo" then Except.ok (Command.echo (t0 :: rest))
      else Except.ok (Command.external (t0 :: rest) runInBackground)

/-- `CommandFactory::createCommand` (`src/include/CommandFactory.h:31-54`):
tokenize the input on `SPACE = " "`, then classify. -/
def createCommand (input : String) : Except ShellError Command :=
  classifyTokens (splitString input " ")

/-- The loop of `EchoCommand::execute` (`src/include/Command.h:61-67`):
`for (i = 1; i < args.size(); ++i) std::cout << expandVariables(args[i]) << " ";`
over the tokens after index 0. -/
def echoLoop (env : String → Option String) : List String → String
  | [] => ""
  | a :: rest => expandVariables env a ++ " " ++ echoLoop env rest

/-- `EchoCommand::execute` (`src/include/Command.h:61-67`): the text printed to
standard output — each argument expanded and followed by one space, then the
final `std::endl`. -/
def echoOutput (env : String → Option String) (args : List String) : String :=
  echoLoop env (args.drop 1) ++ "\n"

/-- The loop of `HistoryCommand::execute` (`src/include/Command.h:131-139`):
`int count = 1; while (std::getline(historyFile, line)) { std::cout << count <<
". " << line << std::endl; count++; }` -/
def historyLoop : Nat → List String → List String
  | _, [] => []
  | count, line :: rest => (toString count ++ ". " ++ line) :: historyLoop (count + 1) rest

/-- `HistoryCommand::execute` (`src/include/Command.h:131-139`): the lines
printed to standard output.  The history file is modelled as
`Option (List String)`: `none` when `std::ifstream` fails to open the file (the
first `getline` then fails and the loop body never runs), `some lines` when it
opens with those lines. -/
def historyOutput : Option (List String) → List String
  | none => []
  | some lines => historyLoop 1 lines

/-- Outcome of the child branch of `ExternalCommand::execute`
(`src/include/Command.h:89-105`): either `execvp` succeeded and the child's
program image was replaced by `prog` with argument vector `argv` (and the
given background flag travels with the pending parent-side wait), or the
environment-variable fallback printed `value` and a newline to standard
output. -/
inductive ChildResult where
  | execed (prog : String) (argv : List String) (runInBackground : Bool) : ChildResult
  | printedEnv (value : String) : ChildResult
deriving DecidableEq, Repr

/-- The child branch of `ExternalCommand::execute` (`src/include/Command.h:89-105`,
identical free-function copy at `src/src/main.cpp:301-316`):

* `execvp(argv[0], argv.data())` — success is modelled by the oracle
  `canExec prog = true`, in which case the program image is replaced;
* on failure, `getenv(args[0].c_str())` — note the lookup key is the literal
  first token; if set, its value is printed and the child stops;
* otherwise `command = args[0]`, a single leading `$` is stripped
  (`if (command[0] == '$') command = command.substr(1)`), and
  `ExternalCommand({"/bin/sh", "-c", command}, runInBackground).execute()`
  re-runs the whole procedure recursively.

The recursion in the source is unbounded; `fuel` counts the remaining
permitted re-invocations, and `none` means the recursion was still running
when the fuel ran out (for every fuel). -/
def externalExecute (env : String → Option String) (canExec : String → Bool) :
    Nat → List String → Bool → Option ChildResult
  | 0, _, _ => none
  | fuel + 1, args, runInBackground =>
    let prog := args.headD ""
    if canExec prog then some (ChildResult.execed prog args runInBackground)
    else
      match env prog with
      | some v => some (ChildResult.printedEnv v)
      | none =>
        let command := match prog.data with
          | c :: rest => if c = dollarChar then String.mk rest else prog
          | [] => prog
        externalExecute env canExec fuel ["/bin/sh", "-c", command] runInBackground

/-- Environment holding only `HOME` (the usual situation: no variable is
literally named `"$HOME"`). -/
def envHomeOnly : String → Option String :=
  fun s => if s = "HOME" then some "/home/user" else none

/-- Environment holding a variable whose literal name is `"$HOME"`. -/
def envLiteralDollarHome : String → Option String :=
  fun s => if s = "$HOME" then some "/home/user" else none

/-- Execution oracle under which only `/bin/sh` can be executed directly. -/
def canExecShOnly : String → Bool := fun s => s = "/bin/sh"

/-- Execution oracle under which no program at all can be executed directly
(the general-purpose interpreter itself is unresolvable). -/
def canExecNothing : String → Bool := fun _ => false

/-- The empty environment. -/
def envEmpty : String → Option String := fun _ => none

/-- Environment binding `NAME` to `bob`. -/
def envNameBob : String → Option String :=
  fun s => if s = "NAME" then some "bob" else none

theorem stripBackground_concat (ts : List String) :
    stripBackground (ts ++ ["&"]) = (ts, true) := by
  unfold stripBackground
  rw [if_pos]
  · rw [List.dropLast_concat]
  · exact ⟨by simp, by simp⟩

theorem stripBackground_no_marker {ts : List String} (h : ts.getLast? ≠ some "&") :
    stripBackground ts = (ts, false) := by
  unfold stripBackground
  rw [if_neg]
  rintro ⟨-, h2⟩
  exact h h2

theorem classifyTokens_of_strip {ts : List String} {t0 : String} {rest : List String}
    {bg : Bool} (h : stripBackground ts = (t0 :: rest, bg)) :
    classifyTokens ts =
      (if t0 = "exit" then Except.ok Command.exitCmd
       else if t0 = "myhistory" then Except.ok Command.history
       else if t0 = "echo" then Except.ok (Command.echo (t0 :: rest))
       else Except.ok (Command.external (t0 :: rest) bg)) := by
  unfold classifyTokens
  rw [h]

theorem echoLoop_eq_foldr (env : String → Option String) :
    ∀ l : List String,
      echoLoop env l = (l.map (fun a => expandVariables env a ++ " ")).foldr (· ++ ·) "" := by
  intro l
  induction l with
  | nil => rfl
  | cons a rest ih => simp only [echoLoop, List.map_cons, List.foldr_cons, ih]

theorem historyLoop_length :
    ∀ (lines : List String) (count : Nat), (historyLoop count lines).length = lines.length := by
  intro lines
  induction lines with
  | nil => intro count; rfl
  | cons line rest ih => intro count; simp [historyLoop, ih]

theorem historyLoop_getD :
    ∀ (lines : List String) (count i : Nat), i < lines.length →
      (historyLoop count lines).getD i "" =
        toString (count + i) ++ ". " ++ lines.getD i "" := by
  intro lines
  induction lines with
  | nil => intro count i h; simp at h
  | cons line rest ih =>
    intro count i h
    cases i with
    | zero => simp [historyLoop]
    | succ i0 =>
      simp only [historyLoop, List.getD_cons_succ]
      rw [ih (count + 1) i0 (by simpa using h)]
      have harith : count + 1 + i0 = count + (i0 + 1) := by omega
      rw [harith]

theorem externalExecute_none_of_unresolvable :
    ∀ (fuel : Nat) (args : List String) (bg : Bool),
      externalExecute envEmpty canExecNothing fuel args bg = none := by
  intro fuel
  induction fuel with
  | zero => intro args bg; rfl
  | succ fuel ih =>
    intro args bg
    simp only [externalExecute, canExecNothing, envEmpty, Bool.false_eq_true, if_false]
    exact ih _ bg

/-- C1: the spec requires `expand("hello $NAME!") == "hello bob!"` and
`expand("hello ${NAME}!") == "hello bob!"` when `NAME=bob`, and `"hello !"`
for both when `NAME` is unset.  The code instead returns every input
unchanged, contradicting its own documentation comment ("Expands environment
variables in a string to their values"); this theorem evaluates the embedded
expander at exactly the spec's inputs. -/
theorem c1_expander_examples_fail :
    expandVariables envNameBob "hello $NAME!" = "hello $NAME!"
    ∧ expandVariables envNameBob "hello ${NAME}!" = "hello ${NAME}!"
    ∧ expandVariables envNameBob "hello $NAME!" ≠ "hello bob!"
    ∧ expandVariables envNameBob "hello ${NAME}!" ≠ "hello bob!"
    ∧ expandVariables envEmpty "hello $NAME!" ≠ "hello !"
    ∧ expandVariables envEmpty "hello ${NAME}!" ≠ "hello !" :=
  ⟨by decide, by decide, by decide, by decide, by decide, by decide⟩

/-- C2: for every input string and every environment, the Variable Expander
returns the input string unchanged — both substitution branches of the scan
loop are unreachable, so the expander is the identity function. -/
theorem c2_expander_is_identity :
    ∀ (env : String → Option String) (str : String), expandVariables env str = str :=
  fun env str => expandVariables_eq_self env str

/-- Counterexample for C3: in an environment where `HOME` is set (and, as
usual, no variable is literally named `"$HOME"`), with `/bin/sh` the only
directly executable program, the child of `External(["$HOME"], false)` does
not print the value of `HOME`: the literal lookup `getenv("$HOME")` misses,
the leading `$` is stripped, and `/bin/sh -c HOME` is delegated to the
shell instead. -/
theorem c3_counterexample_home_not_printed :
    externalExecute envHomeOnly canExecShOnly 2 ["$HOME"] false =
      some (ChildResult.execed "/bin/sh" ["/bin/sh", "-c", "HOME"] false)
    ∧ externalExecute envHomeOnly canExecShOnly 2 ["$HOME"] false ≠
      some (ChildResult.printedEnv "/home/user") :=
  ⟨by decide, by decide⟩

/-- C3 (amended): the environment-variable fallback looks up the literal
first token, dollar sign included; for every environment binding the literal
name `"$HOME"` to `v`, when direct execution of `"$HOME"` fails the child
prints `v` and stops, and does not delegate to the shell or report
command-not-found. -/
theorem c3_env_fallback_literal_lookup
    (env : String → Option String) (canExec : String → Bool) (bg : Bool)
    (v : String) (fuel : Nat)
    (hexec : canExec "$HOME" = false) (henv : env "$HOME" = some v) :
    externalExecute env canExec (fuel + 1) ["$HOME"] bg =
      some (ChildResult.printedEnv v) := by
  simp [externalExecute, hexec, henv]

/-- Witness for C3 (amended): a concrete environment binding the literal name
`"$HOME"`. -/
theorem c3_witness :
    externalExecute envLiteralDollarHome canExecNothing 1 ["$HOME"] false =
      some (ChildResult.printedEnv "/home/user") :=
  c3_env_fallback_literal_lookup envLiteralDollarHome canExecNothing false
    "/home/user" 0 (by decide) (by decide)

/-- C4: the fallback-delegation path does not satisfy the claimed termination
guarantee.  When no program can be executed directly (the general-purpose
shell interpreter included) and no environment variable matches, the source
re-invokes `ExternalCommand({"/bin/sh", "-c", ...}).execute()` without bound
and never reports a `CommandNotFound` condition (no such report exists in
`ExternalCommand::execute`): for every recursion budget the child run is
still unfinished. -/
theorem c4_fallback_recursion_diverges :
    ∀ fuel : Nat,
      externalExecute envEmpty canExecNothing fuel ["nosuchcmd"] false = none :=
  fun fuel => externalExecute_none_of_unresolvable fuel ["nosuchcmd"] false

/-- C5: on an input line whose tokenization yields no tokens — the empty line,
or the line `"&"` whose only token is removed by background-stripping — the
source's `createCommand` reads `tokens[0]` out of bounds (undefined behavior,
surfaced by the embedding as `ShellError.emptyIndex`) rather than reporting an
`EmptyInput` condition to the caller. -/
theorem c5_empty_tokens_out_of_bounds :
    createCommand "" = Except.error ShellError.emptyIndex
    ∧ createCommand "&" = Except.error ShellError.emptyIndex :=
  ⟨rfl, rfl⟩

/-- C6: for every non-empty token sequence, a trailing `"&"` is removed with
`background = true` recorded (and nothing is removed otherwise); when the
stripped sequence has a token 0 equal to `exit`, `myhistory` or `echo`, the
matching built-in variant is constructed; an External variant's first token is
never one of the built-in names (built-ins take priority in all cases); any
other token 0 constructs External with the stripped tokens and recorded flag;
in particular `classify("sleep 5 &")` yields `External(["sleep","5"], true)`
and `classify("echo hi")` yields `Echo(["echo","hi"])`. -/
theorem c6_classifier_contract :
    (∀ ts : List String, stripBackground (ts ++ ["&"]) = (ts, true))
    ∧ (∀ ts : List String, ts.getLast? ≠ some "&" → stripBackground ts = (ts, false))
    ∧ (∀ (ts : List String) (t0 : String) (rest : List String) (bg : Bool),
        stripBackground ts = (t0 :: rest, bg) →
          classifyTokens ts =
            (if t0 = "exit" then Except.ok Command.exitCmd
             else if t0 = "myhistory" then Except.ok Command.history
             else if t0 = "echo" then Except.ok (Command.echo (t0 :: rest))
             else Except.ok (Command.external (t0 :: rest) bg)))
    ∧ (∀ (ts args : List String) (bg : Bool),
        classifyTokens ts = Except.ok (Command.external args bg) →
          args.headD "" ≠ "exit" ∧ args.headD "" ≠ "myhistory" ∧ args.headD "" ≠ "echo")
    ∧ createCommand "sleep 5 &" = Except.ok (Command.external ["sleep", "5"] true)
    ∧ createCommand "echo hi" = Except.ok (Command.echo ["echo", "hi"]) := by
  refine ⟨stripBackground_concat, fun ts h => stripBackground_no_marker h,
    fun ts t0 rest bg h => classifyTokens_of_strip h, ?_, rfl, rfl⟩
  intro ts args bg h
  unfold classifyTokens at h
  rcases hs : stripBackground ts with ⟨toks, b⟩
  rw [hs] at h
  rcases toks with _ | ⟨t0, rest⟩
  · simp at h
  · by_cases h1 : t0 = "exit"
    · simp [h1] at h
    · by_cases h2 : t0 = "myhistory"
      · simp [h1, h2] at h
      · by_cases h3 : t0 = "echo"
        · simp [h1, h2, h3] at h
        · simp [h1, h2, h3] at h
          obtain ⟨h4, -⟩ := h
          subst h4
          exact ⟨h1, h2, h3⟩

/-- Witness for C6: concrete token sequences discharging the hypotheses of
each conditional conjunct. -/
theorem c6_witness :
    stripBackground ["ls", "-l"] = (["ls", "-l"], false)
    ∧ classifyTokens ["sleep", "5", "&"] =
        Except.ok (Command.external ["sleep", "5"] true)
    ∧ ("sleep" : String) ≠ "exit" := by
  have h1 := c6_classifier_contract.2.1 ["ls", "-l"] (by decide)
  have h2 := c6_classifier_contract.2.2.1 ["sleep", "5", "&"] "sleep" ["5"] true (by rfl)
  have h2x : classifyTokens ["sleep", "5", "&"] =
      Except.ok (Command.external ["sleep", "5"] true) := by
    rw [h2]
    rfl
  have h3 := c6_classifier_contract.2.2.2.1 ["sleep", "5", "&"] ["sleep", "5"] true h2x
  exact ⟨h1, h2x, h3.1⟩

/-- C7: Echo emits, for each token after index 0, the variable-expanded token
followed by exactly one space, then one final newline after all tokens; a
lone command name yields just a newline; `Echo(["echo","a","b"])` outputs
exactly `"a b \n"` (trailing space preserved), in every environment. -/
theorem c7_echo_output :
    ∀ env : String → Option String,
      (∀ args : List String,
        echoOutput env args =
          ((args.drop 1).map (fun a => expandVariables env a ++ " ")).foldr
            (· ++ ·) "" ++ "\n")
      ∧ (∀ name : String, echoOutput env [name] = "\n")
      ∧ echoOutput env ["echo", "a", "b"] = "a b \n" := by
  intro env
  refine ⟨fun args => by rw [echoOutput, echoLoop_eq_foldr], fun name => rfl, ?_⟩
  simp only [echoOutput, List.drop_succ_cons, List.drop_zero, echoLoop,
    expandVariables_eq_self]
  rfl

/-- C8: when the history log opens with `n` lines, History prints `n` output
lines, the `i`-th (0-based) being the 1-based index `i+1`, the literal `". "`
separator, and the log line, in file order; when the log cannot be opened it
prints nothing and reports no error. -/
theorem c8_history_output :
    historyOutput none = []
    ∧ (∀ lines : List String, (historyOutput (some lines)).length = lines.length)
    ∧ (∀ (lines : List String) (i : Nat), i < lines.length →
        (historyOutput (some lines)).getD i "" =
          toString (i + 1) ++ ". " ++ lines.getD i "") := by
  refine ⟨rfl, fun lines => historyLoop_length lines 1, fun lines i h => ?_⟩
  simp only [historyOutput]
  rw [historyLoop_getD lines 1 i h, Nat.add_comm 1 i]

/-- Witness for C8: the spec's three-line log, read at index 2. -/
theorem c8_witness :
    (historyOutput (some ["one", "two", "three"])).getD 2 "" =
      toString (2 + 1) ++ ". " ++ (["one", "two", "three"] : List String).getD 2 "" :=
  c8_history_output.2.2 ["one", "two", "three"] 2 (by decide)

/-- C9: every token the Tokenizer returns is non-empty and contains no
delimiter character (so consecutive, leading or trailing delimiters never
produce empty tokens); the concatenation of the tokens is the input with
every delimiter occurrence removed (it splits at every delimiter occurrence);
and `tokenize("a  b")==["a","b"]`, `tokenize(" a ")==["a"]`,
`tokenize("")==[]`. -/
theorem c9_tokenizer_contract :
    (∀ (str delimiters : String), ∀ tok ∈ splitString str delimiters,
      tok ≠ "" ∧ ∀ c ∈ tok.data, c ∉ delimiters.data)
    ∧ (∀ str delimiters : String,
        ((splitString str delimiters).map String.data).flatten =
          str.data.filter (fun c => decide (c ∉ delimiters.data)))
    ∧ splitString "a  b" " " = ["a", "b"]
    ∧ splitString " a " " " = ["a"]
    ∧ splitString "" " " = [] := by
  refine ⟨?_, ?_, by decide, by decide, by decide⟩
  · intro str delims tok htok
    unfold splitString at htok
    obtain ⟨l, hl, rfl⟩ := List.mem_map.mp htok
    obtain ⟨hne, hchar⟩ := splitLoop_token_sound delims.data _ str.data l hl
    refine ⟨?_, fun c hc => hchar c hc⟩
    intro h0
    exact hne (by simpa using congrArg String.data h0)
  · intro str delims
    unfold splitString
    rw [List.map_map]
    have hcomp : String.data ∘ String.mk = id := rfl
    rw [hcomp, List.map_id]
    exact splitLoop_join delims.data _ str.data (by omega)

/-- Witness for C9: the membership hypothesis discharged at the first token of
`tokenize("a  b")`. -/
theorem c9_witness : ("a" : String) ≠ "" :=
  (c9_tokenizer_contract.1 "a  b" " " "a" (by decide)).1

/-- C10: a line ending in the background marker whose remaining token 0 names
a built-in constructs the bare built-in variant — built-in variants carry no
background flag, so the recorded flag is discarded and the command is
classified identically with or without the trailing `"&"`; in particular
`"echo a &"` constructs `Echo(["echo","a"])`, which prints `"a \n"` (no
ampersand, no background behavior) in every environment. -/
theorem c10_background_discarded_for_builtins :
    (∀ (t0 : String) (rest : List String),
      (t0 = "exit" ∨ t0 = "myhistory" ∨ t0 = "echo") →
        classifyTokens ((t0 :: rest) ++ ["&"]) =
          (if t0 = "exit" then Except.ok Command.exitCmd
           else if t0 = "myhistory" then Except.ok Command.history
           else Except.ok (Command.echo (t0 :: rest)))
        ∧ ((t0 :: rest).getLast? ≠ some "&" →
            classifyTokens ((t0 :: rest) ++ ["&"]) = classifyTokens (t0 :: rest)))
    ∧ createCommand "echo a &" = Except.ok (Command.echo ["echo", "a"])
    ∧ (∀ env : String → Option String, echoOutput env ["echo", "a"] = "a \n") := by
  refine ⟨?_, rfl, ?_⟩
  · intro t0 rest hb
    have hcls := classifyTokens_of_strip (stripBackground_concat (t0 :: rest))
    constructor
    · rw [hcls]
      rcases hb with h | h | h <;> subst h <;> rfl
    · intro hlast
      have hcls2 := classifyTokens_of_strip (stripBackground_no_marker hlast)
      rw [hcls, hcls2]
      rcases hb with h | h | h <;> subst h <;> rfl
  · intro env
    simp only [echoOutput, List.drop_succ_cons, List.drop_zero, echoLoop,
      expandVariables_eq_self]
    rfl

/-- Witness for C10: the built-in disjunction and the no-trailing-marker
hypothesis discharged at `["echo", "a"]`. -/
theorem c10_witness :
    classifyTokens ["echo", "a", "&"] = Except.ok (Command.echo ["echo", "a"])
    ∧ classifyTokens ["echo", "a", "&"] = classifyTokens ["echo", "a"] := by
  have h := c10_background_discarded_for_builtins.1 "echo" ["a"] (Or.inr (Or.inr rfl))
  exact ⟨h.1.trans (by rfl), h.2 (by decide)⟩
